import Mathlib

/-!
Verification of the segmented-RMSF accumulator from `tRMSF/trmsfkit.py`.

The embedding models the `trmsfkit` analysis class over exact rational
arithmetic.  Particle positions are 3-vectors of rationals; a frame is a
list of `P` positions; the trajectory is a list of frames.  The three
lifecycle hooks `_prepare`, `_single_frame` and `_conclude` are translated
directly from the source.  The driver (`AnalysisBase.run`, an external
collaborator) visits frames `0 .. F-1` in ascending order, which is modelled
by the prefix-recursion `runUpTo`.

The source stores `sqrt(sum(diff**2, axis=1))` into each row of
`results.trmsf` at segment closure.  Here the run computes the table of
sums of squares (`run`, fully computable over `ℚ`), and the real-valued
result table is obtained by applying `Real.sqrt` entrywise
(`results_trmsf`).  This is observationally exact: the square root is
applied entrywise to each written row, rows written at closure are never
combined with one another, and the zero-initialised entries are fixed
points of the square root, so taking square roots of the completed
sum-of-squares table equals taking them at write time.

Python integer division/modulo (`//`, `%`) are `Int.fdiv` / `Int.fmod`
(floor division, remainder with the divisor's sign).  NumPy row assignment
and MDAnalysis trajectory indexing accept indices in `[-len, len)`, with
negative indices counting from the end, and fail otherwise (`npIndex`).
`len(traj[::step])` for a nonzero step is `ceil(len / |step|)` and raises
for step 0 (`sliceLen`).  Fallible operations return `Option`.
-/

namespace Trmsfkit

/-- A 3D coordinate with exact rational components. -/
structure Vec3 where
  x : ℚ
  y : ℚ
  z : ℚ
deriving DecidableEq, Repr

/-- The zero coordinate, one entry of `np.zeros((n_atoms, 3))`. -/
def zeroVec : Vec3 := ⟨0, 0, 0⟩

/-- Componentwise addition of two coordinates. -/
def Vec3.add (a b : Vec3) : Vec3 := ⟨a.x + b.x, a.y + b.y, a.z + b.z⟩

/-- Componentwise subtraction of two coordinates. -/
def Vec3.sub (a b : Vec3) : Vec3 := ⟨a.x - b.x, a.y - b.y, a.z - b.z⟩

/-- Componentwise division of a coordinate by a (natural) scalar,
modelling `avg_coordinates / self.seg_length`. -/
def Vec3.divNat (a : Vec3) (n : ℕ) : Vec3 := ⟨a.x / n, a.y / n, a.z / n⟩

/-- `np.sum(v**2)` over the three coordinate axes of one particle's row. -/
def Vec3.normSq (a : Vec3) : ℚ := a.x ^ 2 + a.y ^ 2 + a.z ^ 2

/-- Elementwise `+=` of two `P×3` position arrays. -/
def addVecs (a b : List Vec3) : List Vec3 := List.zipWith Vec3.add a b

/-- Elementwise subtraction of two `P×3` position arrays. -/
def subVecs (a b : List Vec3) : List Vec3 := List.zipWith Vec3.sub a b

/-- Elementwise division of a `P×3` array by a scalar count. -/
def divVecs (a : List Vec3) (n : ℕ) : List Vec3 := a.map (Vec3.divNat · n)

/-- The configuration held by the `trmsfkit` object after `__init__`:
the atom-group size, the `skip` stride and the `reference_frame` index.
`__init__` performs no validation of these values. -/
structure Config where
  n_atoms : ℕ
  skip : ℤ
  reference_frame : ℤ
deriving DecidableEq, Repr

/-- The mutable attributes of the analysis object during a run:
`results.trmsf` (here the sum-of-squares table), `reference_positions`,
`avg_coordinates` and `seg_length`. -/
structure RunState where
  trmsf : List (List ℚ)
  reference_positions : List Vec3
  avg_coordinates : List Vec3
  seg_length : ℕ
deriving DecidableEq, Repr

/-- Indexing a sequence of the given length by a possibly negative Python
index: indices in `[0, len)` are used directly, indices in `[-len, 0)` count
from the end, and anything else raises `IndexError` (`none`).  This is the
behaviour of both MDAnalysis trajectory indexing
(`self._trajectory[self.reference_frame]`) and NumPy row assignment
(`self.results.trmsf[seg_num] = rmsf`). -/
def npIndex (len : ℕ) (i : ℤ) : Option ℕ :=
  if 0 ≤ i ∧ i < (len : ℤ) then some i.toNat
  else if -(len : ℤ) ≤ i ∧ i < 0 then some ((len : ℤ) + i).toNat
  else none

/-- `len(traj[::step])`: `ceil(len / |step|)` for a nonzero step, and a
`ValueError` (`none`) for step 0. -/
def sliceLen (len : ℕ) (step : ℤ) : Option ℕ :=
  if step = 0 then none
  else some ((len + (step.natAbs - 1)) / step.natAbs)

/-- The segment-closure condition of `_single_frame`:
`(frame_index + 1) == self.skip or self._frame_index == len(self._trajectory) - 1`. -/
def segCloses (skip : ℤ) (F i : ℕ) : Prop :=
  Int.fmod (i : ℤ) skip + 1 = skip ∨ i = F - 1

instance (skip : ℤ) (F i : ℕ) : Decidable (segCloses skip F i) :=
  inferInstanceAs (Decidable (Int.fmod (i : ℤ) skip + 1 = skip ∨ i = F - 1))

/-- `trmsfkit._prepare`: compute `n_frames = len(self._trajectory[::self.skip])`,
allocate `results.trmsf = np.zeros((n_frames, n_atoms))`, seek the trajectory
to `reference_frame` and copy that frame's positions into
`reference_positions`.  Either lookup can raise, in source order: first the
slice (step 0), then the reference indexing. -/
def _prepare (cfg : Config) (frames : List (List Vec3)) : Option RunState :=
  match sliceLen frames.length cfg.skip with
  | none => none
  | some n_frames =>
    match npIndex frames.length cfg.reference_frame with
    | none => none
    | some r =>
      some { trmsf := List.replicate n_frames (List.replicate cfg.n_atoms 0),
             reference_positions := frames.getD r [],
             avg_coordinates := List.replicate cfg.n_atoms zeroVec,
             seg_length := 0 }

/-- `trmsfkit._single_frame` at frame index `i` of a trajectory of `F` frames,
with `pos` the atom group's current positions.  Computes
`seg_num = i // skip` and `frame_index = i % skip` (Python floor
division/remainder), resets the accumulator when `frame_index == 0`,
accumulates, and on segment closure writes the per-particle
sum-of-squares row (whose entrywise square root is the stored `rmsf`)
into row `seg_num` of the table. -/
def _single_frame (cfg : Config) (F : ℕ) (i : ℕ) (pos : List Vec3)
    (s : RunState) : Option RunState :=
  let seg_num : ℤ := Int.fdiv (i : ℤ) cfg.skip
  let frame_index : ℤ := Int.fmod (i : ℤ) cfg.skip
  let avg0 := if frame_index = 0 then List.replicate cfg.n_atoms zeroVec
              else s.avg_coordinates
  let len0 := if frame_index = 0 then 0 else s.seg_length
  let avg1 := addVecs avg0 pos
  let len1 := len0 + 1
  if segCloses cfg.skip F i then
    let avg := divVecs avg1 len1
    let diff := subVecs s.reference_positions avg
    let rmsfSq := diff.map Vec3.normSq
    match npIndex s.trmsf.length seg_num with
    | some j => some { s with trmsf := s.trmsf.set j rmsfSq,
                              avg_coordinates := avg1, seg_length := len1 }
    | none => none
  else
    some { s with avg_coordinates := avg1, seg_length := len1 }

/-- The state of the analysis object after `_prepare` followed by the first
`n` iterations of the driver loop (frames `0 .. n-1`, in ascending order).
Models `AnalysisBase.run`'s frame loop over the whole trajectory. -/
def runUpTo (cfg : Config) (frames : List (List Vec3)) : ℕ → Option RunState
  | 0 => _prepare cfg frames
  | n + 1 => (runUpTo cfg frames n).bind
      (_single_frame cfg frames.length n (frames.getD n []))

/-- The completed run's sum-of-squares table: `_prepare` followed by one
`_single_frame` call per trajectory frame. -/
def run (cfg : Config) (frames : List (List Vec3)) : Option (List (List ℚ)) :=
  (runUpTo cfg frames frames.length).map (·.trmsf)

/-- The completed run's `results.trmsf` array: the entrywise square root of
the sum-of-squares table (see the module comment for why this equals the
write-time square roots of the source). -/
noncomputable def results_trmsf (cfg : Config) (frames : List (List Vec3)) :
    Option (List (List ℝ)) :=
  (run cfg frames).map (List.map (List.map (fun q : ℚ => Real.sqrt (q : ℝ))))

open Classical in
/-- `trmsfkit._conclude`: raise
`ValueError("Some RMSF values negative; overflow or underflow occurred")`
unless `(self.results.trmsf >= 0).all()`. -/
noncomputable def _conclude (t : List (List ℝ)) : Except String Unit :=
  if ∀ row ∈ t, ∀ x ∈ row, (0 : ℝ) ≤ x then Except.ok ()
  else Except.error "Some RMSF values negative; overflow or underflow occurred"

/-! ### Python arithmetic on natural operands -/

theorem fmod_natCast (m n : ℕ) : Int.fmod (m : ℤ) (n : ℤ) = ((m % n : ℕ) : ℤ) :=
  (Int.ofNat_fmod m n).symm

theorem fdiv_natCast (m n : ℕ) : Int.fdiv (m : ℤ) (n : ℤ) = ((m / n : ℕ) : ℤ) :=
  (Int.ofNat_fdiv m n).symm

theorem npIndex_natCast (len m : ℕ) :
    npIndex len (m : ℤ) = if m < len then some m else none := by
  unfold npIndex
  by_cases h : m < len
  · rw [if_pos ⟨by positivity, by exact_mod_cast h⟩, Int.toNat_ofNat, if_pos h]
  · rw [if_neg, if_neg, if_neg h]
    · rintro ⟨-, h2⟩
      omega
    · rintro ⟨-, h2⟩
      exact h (by exact_mod_cast h2)

theorem segCloses_natCast (k F i : ℕ) :
    segCloses (k : ℤ) F i ↔ (i % k + 1 = k ∨ i = F - 1) := by
  unfold segCloses
  rw [fmod_natCast]
  constructor
  · rintro (h | h)
    · left; exact_mod_cast h
    · right; exact h
  · rintro (h | h)
    · left; exact_mod_cast h
    · right; exact h

/-- `_single_frame` restated with the index arithmetic carried out over `ℕ`,
for a nonnegative stride `skip = k`. -/
theorem _single_frame_nat (cfg : Config) (k : ℕ) (hk : cfg.skip = (k : ℤ))
    (F i : ℕ) (pos : List Vec3) (s : RunState) :
    _single_frame cfg F i pos s =
      if i % k + 1 = k ∨ i = F - 1 then
        (if i / k < s.trmsf.length then
          some { s with
            trmsf := s.trmsf.set (i / k)
              ((subVecs s.reference_positions
                (divVecs
                  (addVecs
                    (if i % k = 0 then List.replicate cfg.n_atoms zeroVec
                     else s.avg_coordinates) pos)
                  ((if i % k = 0 then 0 else s.seg_length) + 1))).map Vec3.normSq),
            avg_coordinates :=
              addVecs
                (if i % k = 0 then List.replicate cfg.n_atoms zeroVec
                 else s.avg_coordinates) pos,
            seg_length := (if i % k = 0 then 0 else s.seg_length) + 1 }
         else none)
      else
        some { s with
          avg_coordinates :=
            addVecs
              (if i % k = 0 then List.replicate cfg.n_atoms zeroVec
               else s.avg_coordinates) pos,
          seg_length := (if i % k = 0 then 0 else s.seg_length) + 1 } := by
  unfold _single_frame
  rw [hk]
  simp only [fmod_natCast, fdiv_natCast, npIndex_natCast, segCloses_natCast,
    Nat.cast_eq_zero]
  by_cases hc : i % k + 1 = k ∨ i = F - 1
  · simp only [if_pos hc]
    by_cases hj : i / k < s.trmsf.length
    · simp only [if_pos hj]
    · simp only [if_neg hj]
  · simp only [if_neg hc]

/-- `_prepare` restated over `ℕ` for a positive stride and a nonnegative
reference frame index. -/
theorem _prepare_nat (cfg : Config) (frames : List (List Vec3)) (k r : ℕ)
    (hk : cfg.skip = (k : ℤ)) (hk1 : 1 ≤ k) (hr : cfg.reference_frame = (r : ℤ)) :
    _prepare cfg frames =
      if r < frames.length then
        some { trmsf := List.replicate ((frames.length + (k - 1)) / k)
                 (List.replicate cfg.n_atoms 0),
               reference_positions := frames.getD r [],
               avg_coordinates := List.replicate cfg.n_atoms zeroVec,
               seg_length := 0 }
      else none := by
  unfold _prepare sliceLen
  rw [hk, hr, npIndex_natCast]
  have hk0 : (k : ℤ) ≠ 0 := by exact_mod_cast (by omega : k ≠ 0)
  rw [if_neg hk0]
  simp only [Int.natAbs_ofNat]
  by_cases hrF : r < frames.length
  · simp only [if_pos hrF]
  · simp only [if_neg hrF]

/-! ### Segment bookkeeping: the values the run is expected to produce -/

/-- `ceil(F / k)` as computed by `len(traj[::k])`: the number of rows of the
Result Table. -/
def nRows (F k : ℕ) : ℕ := (F + (k - 1)) / k

/-- The running sum of `len` consecutive frames starting at frame `a`,
accumulated exactly as the code does: starting from `np.zeros((P, 3))` and
folding `+=` left to right. -/
def segmentSum (P : ℕ) (frames : List (List Vec3)) (a len : ℕ) : List Vec3 :=
  ((frames.drop a).take len).foldl addVecs (List.replicate P zeroVec)

/-- The number of frames of segment `m`: `min(k*(m+1), F) - k*m`. -/
def segLen (k F m : ℕ) : ℕ := min (k * (m + 1)) F - k * m

/-- The sum-of-squares row the run writes for segment `m`: per particle, the
squared Euclidean distance between the reference position and the segment's
average position. -/
def rowSq (P k : ℕ) (frames : List (List Vec3)) (ref : List Vec3) (m : ℕ) :
    List ℚ :=
  (subVecs ref
    (divVecs (segmentSum P frames (k * m) (segLen k frames.length m))
      (segLen k frames.length m))).map Vec3.normSq

/-- How many leading rows of the table are finalized after the first `n`
frames have been processed. -/
def writtenCount (k F n : ℕ) : ℕ := if n = F then nRows F k else n / k

/-- The predicted table contents after the first `n` frames: finalized rows
carry their `rowSq` value, the rest are still the allocated zeros. -/
def expectedTable (P k r n : ℕ) (frames : List (List Vec3)) : List (List ℚ) :=
  (List.range (nRows frames.length k)).map
    (fun m => if m < writtenCount k frames.length n
              then rowSq P k frames (frames.getD r []) m
              else List.replicate P 0)

/-! ### List-level lemmas -/

theorem addVecs_length (a b : List Vec3) :
    (addVecs a b).length = min a.length b.length := by
  simp [addVecs]

theorem foldl_addVecs_length (P : ℕ) (l : List (List Vec3)) (acc : List Vec3)
    (hacc : acc.length = P) (h : ∀ v ∈ l, v.length = P) :
    (l.foldl addVecs acc).length = P := by
  induction l generalizing acc with
  | nil => simpa using hacc
  | cons v l ih =>
    rw [List.foldl_cons]
    exact ih (addVecs acc v)
      (by rw [addVecs_length, hacc, h v (List.mem_cons_self v l)]; simp)
      (fun w hw => h w (List.mem_cons_of_mem v hw))

theorem segmentSum_length (P : ℕ) (frames : List (List Vec3)) (a len : ℕ)
    (h : ∀ f ∈ frames, f.length = P) :
    (segmentSum P frames a len).length = P := by
  unfold segmentSum
  exact foldl_addVecs_length P _ _ (by simp)
    (fun v hv => h v (List.drop_subset a frames (List.take_subset len _ hv)))

theorem segmentSum_zero (P : ℕ) (frames : List (List Vec3)) (a : ℕ) :
    segmentSum P frames a 0 = List.replicate P zeroVec := rfl

theorem segmentSum_succ (P : ℕ) (frames : List (List Vec3)) (a m : ℕ)
    (h : a + m < frames.length) :
    segmentSum P frames a (m + 1) =
      addVecs (segmentSum P frames a m) (frames.getD (a + m) []) := by
  unfold segmentSum
  rw [List.take_succ, List.foldl_append]
  have hd : (frames.drop a)[m]? = some (frames.getD (a + m) []) := by
    rw [List.getElem?_drop, List.getD_eq_getElem frames [] h,
      List.getElem?_eq_getElem h]
  rw [hd]
  rfl

theorem Vec3.add_zero_left (v : Vec3) : Vec3.add zeroVec v = v := by
  cases v
  simp [Vec3.add, zeroVec]

theorem addVecs_replicate_zero (v : List Vec3) :
    addVecs (List.replicate v.length zeroVec) v = v := by
  induction v with
  | nil => rfl
  | cons x xs ih =>
    simp only [List.length_cons, List.replicate_succ, addVecs, List.zipWith_cons_cons]
    exact congrArg₂ _ (Vec3.add_zero_left x) ih

theorem divVecs_one (v : List Vec3) : divVecs v 1 = v := by
  unfold divVecs
  have h : ∀ x : Vec3, Vec3.divNat x 1 = x := by
    intro x
    cases x
    simp [Vec3.divNat]
  simp [h]

theorem subVecs_self_normSq (v : List Vec3) :
    (subVecs v v).map Vec3.normSq = List.replicate v.length 0 := by
  induction v with
  | nil => rfl
  | cons x xs ih =>
    simp only [subVecs, List.zipWith_cons_cons, List.map_cons, List.length_cons,
      List.replicate_succ]
    refine congrArg₂ _ ?_ ih
    cases x
    simp [Vec3.sub, Vec3.normSq]

theorem set_range_map {α : Type} (n m : ℕ) (f : ℕ → α) (v : α) :
    ((List.range n).map f).set m v =
      (List.range n).map (fun j => if j = m then v else f j) := by
  apply List.ext_getElem?
  intro j
  rw [List.getElem?_set]
  by_cases hjn : j < n
  · by_cases hjm : m = j
    · subst hjm
      simp [List.getElem?_map, List.getElem?_range, hjn]
    · simp [List.getElem?_map, List.getElem?_range, hjn, hjm, Ne.symm hjm]
  · have h2 : ((List.range n).map (fun j => if j = m then v else f j))[j]? = none :=
      List.getElem?_eq_none (by simpa using hjn)
    have h3 : ¬ j < ((List.range n).map f).length := by simpa using hjn
    by_cases hjm : m = j
    · subst hjm
      simp [h2, h3]
      omega
    · simp [hjm, h2]
      omega

theorem expectedTable_length (P k r n : ℕ) (frames : List (List Vec3)) :
    (expectedTable P k r n frames).length = nRows frames.length k := by
  simp [expectedTable]

theorem expectedTable_zero (P k r : ℕ) (frames : List (List Vec3))
    (hF : 1 ≤ frames.length) :
    expectedTable P k r 0 frames =
      List.replicate (nRows frames.length k) (List.replicate P 0) := by
  unfold expectedTable writtenCount
  rw [if_neg (by omega : (0 : ℕ) ≠ frames.length)]
  simp [Nat.div_eq_of_lt, List.eq_replicate_iff]

/-! ### Arithmetic about division by the stride -/

theorem mul_add_div_mod (k q a : ℕ) (hk : 0 < k) (h : a < k) :
    (k * q + a) / k = q ∧ (k * q + a) % k = a := by
  constructor
  · rw [Nat.add_comm, Nat.add_mul_div_left a q hk, Nat.div_eq_of_lt h, Nat.zero_add]
  · rw [Nat.add_comm, Nat.add_mul_mod_self_left, Nat.mod_eq_of_lt h]

theorem nRows_eq (F k : ℕ) (hk : 1 ≤ k) (hF : 1 ≤ F) :
    nRows F k = (F - 1) / k + 1 := by
  unfold nRows
  rw [(by omega : F + (k - 1) = F - 1 + k), Nat.add_div_right _ (by omega)]

/-! ### The master run invariant -/

/-- Under a valid configuration (`skip = k ≥ 1`, `reference_frame = r` with
`r < F`), the run never fails, and after processing frames `0 .. n-1` the
whole analysis state is determined: the reference positions are frame `r`'s
positions, the segment counter and running sum describe the current
in-progress segment, and the table carries exactly the rows of the segments
closed so far. -/
theorem runUpTo_spec (cfg : Config) (frames : List (List Vec3)) (k r : ℕ)
    (hk : cfg.skip = (k : ℤ)) (hk1 : 1 ≤ k)
    (hr : cfg.reference_frame = (r : ℤ)) (hrF : r < frames.length) :
    ∀ n, n ≤ frames.length →
      runUpTo cfg frames n = some
        { trmsf := expectedTable cfg.n_atoms k r n frames,
          reference_positions := frames.getD r [],
          avg_coordinates :=
            if n = 0 then List.replicate cfg.n_atoms zeroVec
            else segmentSum cfg.n_atoms frames (k * ((n - 1) / k)) ((n - 1) % k + 1),
          seg_length := if n = 0 then 0 else (n - 1) % k + 1 } := by
  intro n
  induction n with
  | zero =>
    intro h0
    have hF : 1 ≤ frames.length := by omega
    rw [runUpTo, _prepare_nat cfg frames k r hk hk1 hr, if_pos hrF,
      expectedTable_zero _ _ _ _ hF]
    simp [nRows]
  | succ n ih =>
    intro hn1
    have hn : n < frames.length := by omega
    have hF : 1 ≤ frames.length := by omega
    rw [runUpTo, ih (by omega)]
    dsimp only [Option.bind]
    rw [_single_frame_nat cfg k hk]
    dsimp only
    have hqr : k * (n / k) + n % k = n := Nat.div_add_mod n k
    have hrrk : n % k < k := Nat.mod_lt _ (by omega)
    have havg0 : (if n % k = 0 then List.replicate cfg.n_atoms zeroVec
        else if n = 0 then List.replicate cfg.n_atoms zeroVec
        else segmentSum cfg.n_atoms frames (k * ((n - 1) / k)) ((n - 1) % k + 1))
        = segmentSum cfg.n_atoms frames (k * (n / k)) (n % k) := by
      by_cases hz : n % k = 0
      · rw [if_pos hz, hz, segmentSum_zero]
      · have hn0 : n ≠ 0 := by
          intro h
          exact hz (by simp [h])
        have hsub : n - 1 = k * (n / k) + (n % k - 1) := by omega
        have hdm := mul_add_div_mod k (n / k) (n % k - 1) (by omega) (by omega)
        rw [if_neg hz, if_neg hn0, hsub, hdm.1, hdm.2,
          (by omega : n % k - 1 + 1 = n % k)]
    have hlen0 : (if n % k = 0 then 0
        else if n = 0 then 0 else (n - 1) % k + 1) + 1 = n % k + 1 := by
      by_cases hz : n % k = 0
      · rw [if_pos hz, hz]
      · have hn0 : n ≠ 0 := by
          intro h
          exact hz (by simp [h])
        have hsub : n - 1 = k * (n / k) + (n % k - 1) := by omega
        have hdm := mul_add_div_mod k (n / k) (n % k - 1) (by omega) (by omega)
        rw [if_neg hz, if_neg hn0, hsub, hdm.2, (by omega : n % k - 1 + 1 = n % k)]
    have havg1 : addVecs (segmentSum cfg.n_atoms frames (k * (n / k)) (n % k))
        (frames.getD n []) =
        segmentSum cfg.n_atoms frames (k * (n / k)) (n % k + 1) := by
      rw [segmentSum_succ cfg.n_atoms frames (k * (n / k)) (n % k) (by omega), hqr]
    rw [havg0, hlen0, havg1]
    have htargetavg : (if n + 1 = 0 then List.replicate cfg.n_atoms zeroVec
        else segmentSum cfg.n_atoms frames (k * ((n + 1 - 1) / k)) ((n + 1 - 1) % k + 1))
        = segmentSum cfg.n_atoms frames (k * (n / k)) (n % k + 1) := by
      rw [if_neg (by omega : ¬ n + 1 = 0), Nat.add_sub_cancel]
    have htargetlen : (if n + 1 = 0 then 0 else (n + 1 - 1) % k + 1) = n % k + 1 := by
      rw [if_neg (by omega : ¬ n + 1 = 0), Nat.add_sub_cancel]
    rw [htargetavg, htargetlen]
    have hwcn : writtenCount k frames.length n = n / k := by
      unfold writtenCount
      rw [if_neg (by omega : ¬ n = frames.length)]
    by_cases hc : n % k + 1 = k ∨ n = frames.length - 1
    · rw [if_pos hc]
      have hqlt : n / k < (expectedTable cfg.n_atoms k r n frames).length := by
        rw [expectedTable_length, nRows_eq frames.length k hk1 hF]
        have hdle : n / k ≤ (frames.length - 1) / k :=
          Nat.div_le_div_right (by omega)
        omega
      rw [if_pos hqlt]
      have hmin : min (k * (n / k) + k) frames.length = n + 1 := by
        rcases hc with hc | hc <;> omega
      have hseglen : segLen k frames.length (n / k) = n % k + 1 := by
        unfold segLen
        rw [Nat.mul_succ, hmin]
        omega
      have hwc1 : writtenCount k frames.length (n + 1) = n / k + 1 := by
        unfold writtenCount
        by_cases hnF : n + 1 = frames.length
        · rw [if_pos hnF, nRows_eq frames.length k hk1 hF, ← hnF, Nat.add_sub_cancel]
        · have hck : n % k + 1 = k := by
            rcases hc with hc | hc
            · exact hc
            · omega
          have hmul : n + 1 = k * (n / k + 1) + 0 := by
            rw [Nat.mul_succ]
            omega
          rw [if_neg hnF, hmul, (mul_add_div_mod k (n / k + 1) 0 (by omega) (by omega)).1]
      have hrow : (subVecs (frames.getD r [])
          (divVecs (segmentSum cfg.n_atoms frames (k * (n / k)) (n % k + 1)) (n % k + 1))).map
            Vec3.normSq
          = rowSq cfg.n_atoms k frames (frames.getD r []) (n / k) := by
        unfold rowSq
        rw [hseglen]
      rw [hrow]
      have htable : (expectedTable cfg.n_atoms k r n frames).set (n / k)
          (rowSq cfg.n_atoms k frames (frames.getD r []) (n / k))
          = expectedTable cfg.n_atoms k r (n + 1) frames := by
        unfold expectedTable
        rw [set_range_map]
        apply List.map_congr_left
        intro j hj
        rw [List.mem_range] at hj
        by_cases hjq : j = n / k
        · subst hjq
          rw [if_pos rfl, hwc1, if_pos (by omega : n / k < n / k + 1)]
        · rw [if_neg hjq, hwcn, hwc1]
          exact if_congr (by omega) rfl rfl
      rw [htable]
    · rw [if_neg hc]
      push_neg at hc
      have hwc1 : writtenCount k frames.length (n + 1) = n / k := by
        unfold writtenCount
        rw [if_neg (by omega : ¬ n + 1 = frames.length)]
        have hmul : n + 1 = k * (n / k) + (n % k + 1) := by omega
        rw [hmul, (mul_add_div_mod k (n / k) (n % k + 1) (by omega) (by omega)).1]
      have htable : expectedTable cfg.n_atoms k r n frames
          = expectedTable cfg.n_atoms k r (n + 1) frames := by
        unfold expectedTable
        rw [hwcn, hwc1]
      rw [htable]

/-! ### Concrete data for the spec's scenario -/

/-- Frame with both particles at the origin. -/
def frame00 : List Vec3 := [⟨0, 0, 0⟩, ⟨0, 0, 0⟩]

/-- Frame with particle 0 at `(2,0,0)` and particle 1 at the origin. -/
def frame20 : List Vec3 := [⟨2, 0, 0⟩, ⟨0, 0, 0⟩]

/-- The spec's concrete scenario trajectory: `f0, f1, f2, f3`. -/
def scenarioFrames : List (List Vec3) := [frame00, frame20, frame00, frame00]

/-- The spec's concrete scenario configuration: `P = 2`, `K = 2`, `R = 0`. -/
def scenarioConfig : Config := ⟨2, 2, 0⟩

/-! ### Claims -/

/-- C1: for P=2 particles, F=4 frames, K=2, reference frame 0, with the
spec's frame positions, the completed run produces exactly the 2×2 Result
Table `[[1,0],[0,0]]`. -/
theorem concrete_scenario_table :
    results_trmsf scenarioConfig scenarioFrames = some [[1, 0], [0, 0]] := by
  have hk : scenarioConfig.skip = ((2 : ℕ) : ℤ) := by norm_num [scenarioConfig]
  have hr : scenarioConfig.reference_frame = ((0 : ℕ) : ℤ) := by
    norm_num [scenarioConfig]
  have hF : scenarioFrames.length = 4 := rfl
  have h0 : scenarioFrames.getD 0 [] = frame00 := rfl
  have h1 : scenarioFrames.getD 1 [] = frame20 := rfl
  have h2 : scenarioFrames.getD 2 [] = frame00 := rfl
  have h3 : scenarioFrames.getD 3 [] = frame00 := rfl
  have hrun : run scenarioConfig scenarioFrames = some [[1, 0], [0, 0]] := by
    norm_num [run, runUpTo, hF, h0, h1, h2, h3,
      _single_frame_nat scenarioConfig 2 hk,
      _prepare_nat scenarioConfig scenarioFrames 2 0 hk (by norm_num) hr,
      addVecs, subVecs, divVecs, Vec3.add, Vec3.sub, Vec3.divNat, Vec3.normSq,
      zeroVec, frame00, frame20, List.set]
    norm_num [scenarioFrames, scenarioConfig, frame00, frame20, Vec3.normSq,
      Vec3.add, Vec3.sub, Vec3.divNat, zeroVec, List.replicate_succ]
  rw [results_trmsf, hrun]
  norm_num [Real.sqrt_one, Real.sqrt_zero]

/-- C2 counterexample: the claim "P = 0, K < 1 or R outside [0,F) is
rejected at construction/prepare time" is false on the code.  With P = 0
the whole run completes; with R = -1 prepare succeeds and captures the
LAST frame's positions (Python indexing from the end); with K = -2
prepare also succeeds. -/
theorem validation_counterexample :
    run ⟨0, 1, 0⟩ [[]] = some [[]] ∧
    (_prepare ⟨1, 1, -1⟩ [[⟨0, 0, 0⟩], [⟨1, 0, 0⟩]]).map (·.reference_positions)
      = some [⟨1, 0, 0⟩] ∧
    (_prepare ⟨1, -2, 0⟩ [[⟨0, 0, 0⟩], [⟨1, 0, 0⟩], [⟨0, 0, 0⟩]]).isSome = true := by
  refine ⟨?_, ?_, ?_⟩
  · have hk : (Config.mk 0 1 0).skip = ((1 : ℕ) : ℤ) := by norm_num
    have hr : (Config.mk 0 1 0).reference_frame = ((0 : ℕ) : ℤ) := by norm_num
    norm_num [run, runUpTo, _single_frame_nat (Config.mk 0 1 0) 1 hk,
      _prepare_nat (Config.mk 0 1 0) [[]] 1 0 hk le_rfl hr,
      addVecs, subVecs, divVecs, List.replicate]
  · norm_num [_prepare, sliceLen, npIndex]
  · norm_num [_prepare, sliceLen, npIndex]

/-- C2 amended: construction performs no validation at all; the prepare
phase fails exactly when the stride is 0 (invalid slice step) or the
reference frame index lies outside `[-F, F)` (index error).  In particular
P = 0 and negative strides are accepted, and a reference index in `[-F, 0)`
is interpreted as counting from the end. -/
theorem prepare_failure_iff (cfg : Config) (frames : List (List Vec3)) :
    _prepare cfg frames = none ↔
      (cfg.skip = 0 ∨ cfg.reference_frame < -(frames.length : ℤ)
        ∨ (frames.length : ℤ) ≤ cfg.reference_frame) := by
  unfold _prepare sliceLen npIndex
  by_cases h0 : cfg.skip = 0
  · simp [h0]
  · rw [if_neg h0]
    by_cases h1 : 0 ≤ cfg.reference_frame ∧ cfg.reference_frame < (frames.length : ℤ)
    · rw [if_pos h1]
      simp only [h0, false_or]
      constructor
      · intro h
        exact absurd h (by simp)
      · intro h
        omega
    · rw [if_neg h1]
      by_cases h2 : -(frames.length : ℤ) ≤ cfg.reference_frame ∧
          cfg.reference_frame < 0
      · rw [if_pos h2]
        simp only [h0, false_or]
        constructor
        · intro h
          exact absurd h (by simp)
        · intro h
          omega
      · rw [if_neg h2]
        simp only [h0, false_or]
        constructor
        · intro h
          push_neg at h1 h2
          omega
        · intro h
          trivial

/-! ### Row-level helpers -/

theorem getD_mem (frames : List (List Vec3)) (r : ℕ) (hr : r < frames.length) :
    frames.getD r [] ∈ frames := by
  rw [List.getD_eq_getElem frames [] hr]
  exact List.getElem_mem hr

theorem rowSq_length (P k m : ℕ) (frames : List (List Vec3)) (ref : List Vec3)
    (href : ref.length = P) (hlen : ∀ f ∈ frames, f.length = P) :
    (rowSq P k frames ref m).length = P := by
  unfold rowSq subVecs divVecs
  rw [List.length_map, List.length_zipWith, href, List.length_map,
    segmentSum_length P frames _ _ hlen]
  simp

theorem expectedTable_row_length (P k r n : ℕ) (frames : List (List Vec3))
    (hr : r < frames.length) (hlen : ∀ f ∈ frames, f.length = P) :
    ∀ row ∈ expectedTable P k r n frames, row.length = P := by
  intro row hrow
  unfold expectedTable at hrow
  rw [List.mem_map] at hrow
  obtain ⟨m, -, hrow⟩ := hrow
  by_cases h : m < writtenCount k frames.length n
  · rw [if_pos h] at hrow
    rw [← hrow]
    exact rowSq_length P k m frames _ (hlen _ (getD_mem frames r hr)) hlen
  · rw [if_neg h] at hrow
    rw [← hrow]
    simp

theorem expectedTable_getD (P k r n : ℕ) (frames : List (List Vec3)) (m : ℕ)
    (hm : m < nRows frames.length k) :
    (expectedTable P k r n frames).getD m [] =
      if m < writtenCount k frames.length n
      then rowSq P k frames (frames.getD r []) m
      else List.replicate P 0 := by
  unfold expectedTable
  rw [List.getD_eq_getElem _ _ (by simpa using hm), List.getElem_map,
    List.getElem_range]

/-- C3: for every valid configuration the completed Result Table has exactly
`ceil(F/K) = (F + (K-1)) / K` rows and exactly P columns. -/
theorem result_table_shape (cfg : Config) (frames : List (List Vec3)) (k r : ℕ)
    (hk : cfg.skip = (k : ℤ)) (hk1 : 1 ≤ k)
    (hr : cfg.reference_frame = (r : ℤ)) (hrF : r < frames.length)
    (_hP : 1 ≤ cfg.n_atoms)
    (hlen : ∀ f ∈ frames, f.length = cfg.n_atoms) :
    ∃ t, results_trmsf cfg frames = some t ∧
      t.length = (frames.length + (k - 1)) / k ∧
      ∀ row ∈ t, row.length = cfg.n_atoms := by
  have hspec := runUpTo_spec cfg frames k r hk hk1 hr hrF frames.length le_rfl
  have ht : results_trmsf cfg frames =
      some ((expectedTable cfg.n_atoms k r frames.length frames).map
        (List.map (fun q : ℚ => Real.sqrt (q : ℝ)))) := by
    rw [results_trmsf, run, hspec, Option.map_some', Option.map_some']
  refine ⟨_, ht, ?_, ?_⟩
  · rw [List.length_map, expectedTable_length]
    rfl
  · intro row hrow
    rw [List.mem_map] at hrow
    obtain ⟨row0, hrow0, hrow⟩ := hrow
    rw [← hrow, List.length_map]
    exact expectedTable_row_length cfg.n_atoms k r frames.length frames hrF hlen
      row0 hrow0

/-- C3 witness: the spec scenario (P = 2, F = 4, K = 2, R = 0) yields a
table of ceil(4/2) = 2 rows and 2 columns. -/
theorem result_table_shape_witness :
    ∃ t, results_trmsf scenarioConfig scenarioFrames = some t ∧
      t.length = 2 ∧ ∀ row ∈ t, row.length = 2 := by
  have h := result_table_shape scenarioConfig scenarioFrames 2 0
    (by norm_num [scenarioConfig]) (by norm_num)
    (by norm_num [scenarioConfig]) (by norm_num [scenarioFrames])
    (by norm_num [scenarioConfig])
    (by
      intro f hf
      fin_cases hf <;> rfl)
  simpa [scenarioFrames, scenarioConfig] using h

/-- C5: every entry of a completed Result Table is a square root, hence
nonnegative, and the conclude phase's error branch is unreachable. -/
theorem table_entries_nonneg (cfg : Config) (frames : List (List Vec3))
    (t : List (List ℝ)) (ht : results_trmsf cfg frames = some t) :
    (∀ row ∈ t, ∀ x ∈ row, 0 ≤ x) ∧ _conclude t = Except.ok () := by
  have hnn : ∀ row ∈ t, ∀ x ∈ row, 0 ≤ x := by
    unfold results_trmsf at ht
    cases hrun : run cfg frames with
    | none => rw [hrun] at ht; exact absurd ht (by simp)
    | some q =>
      rw [hrun, Option.map_some', Option.some_inj] at ht
      intro row hrow x hx
      rw [← ht] at hrow
      rw [List.mem_map] at hrow
      obtain ⟨row0, -, hrow⟩ := hrow
      rw [← hrow, List.mem_map] at hx
      obtain ⟨x0, -, hx⟩ := hx
      rw [← hx]
      exact Real.sqrt_nonneg _
  refine ⟨hnn, ?_⟩
  unfold _conclude
  rw [if_pos hnn]

/-- C5 witness: a one-frame, one-particle run completes and its table passes
the conclude check. -/
theorem table_entries_nonneg_witness :
    ∃ t, results_trmsf ⟨1, 1, 0⟩ [[⟨0, 0, 0⟩]] = some t ∧
      ((∀ row ∈ t, ∀ x ∈ row, 0 ≤ x) ∧ _conclude t = Except.ok ()) := by
  have hk : (Config.mk 1 1 0).skip = ((1 : ℕ) : ℤ) := by norm_num
  have hr : (Config.mk 1 1 0).reference_frame = ((0 : ℕ) : ℤ) := by norm_num
  have ht : results_trmsf ⟨1, 1, 0⟩ [[⟨0, 0, 0⟩]] = some [[0]] := by
    have hrun : run ⟨1, 1, 0⟩ [[⟨0, 0, 0⟩]] = some [[0]] := by
      norm_num [run, runUpTo, _single_frame_nat (Config.mk 1 1 0) 1 hk,
        _prepare_nat (Config.mk 1 1 0) [[⟨0, 0, 0⟩]] 1 0 hk le_rfl hr,
        addVecs, subVecs, divVecs, Vec3.add, Vec3.sub, Vec3.divNat, Vec3.normSq,
        zeroVec, List.replicate, List.set]
    rw [results_trmsf, hrun]
    norm_num [Real.sqrt_zero]
  exact ⟨_, ht, table_entries_nonneg ⟨1, 1, 0⟩ [[⟨0, 0, 0⟩]] [[0]] ht⟩

/-- C6: the conclude phase raises the numerical-validity error iff some
entry of the table is negative, and returns successfully iff no entry is. -/
theorem conclude_error_iff (t : List (List ℝ)) :
    (_conclude t =
        Except.error "Some RMSF values negative; overflow or underflow occurred"
      ↔ ∃ row ∈ t, ∃ x ∈ row, x < 0) ∧
    (_conclude t = Except.ok () ↔ ∀ row ∈ t, ∀ x ∈ row, 0 ≤ x) := by
  unfold _conclude
  by_cases h : ∀ row ∈ t, ∀ x ∈ row, (0 : ℝ) ≤ x
  · rw [if_pos h]
    refine ⟨⟨fun hcontra => absurd hcontra (by simp), fun hneg => ?_⟩,
      ⟨fun _ => h, fun _ => rfl⟩⟩
    obtain ⟨row, hrow, x, hx, hxneg⟩ := hneg
    exact absurd (h row hrow x hx) (by linarith)
  · rw [if_neg h]
    push_neg at h
    obtain ⟨row, hrow, x, hx, hxneg⟩ := h
    refine ⟨⟨fun _ => ⟨row, hrow, x, hx, hxneg⟩, fun _ => rfl⟩,
      ⟨fun hcontra => absurd hcontra (by simp), fun hall => ?_⟩⟩
    exact absurd (hall row hrow x hx) (by linarith)

/-- C4: at the step where a segment closes, the frame counter equals K for
every non-final segment, and for the final segment it equals K when F is an
exact multiple of K and `F mod K` otherwise. -/
theorem segment_counter_at_closure (cfg : Config) (frames : List (List Vec3))
    (k r : ℕ) (hk : cfg.skip = (k : ℤ)) (hk1 : 1 ≤ k)
    (hr : cfg.reference_frame = (r : ℤ)) (hrF : r < frames.length) :
    ∀ i < frames.length, segCloses cfg.skip frames.length i →
      ∃ s, runUpTo cfg frames (i + 1) = some s ∧
        (i ≠ frames.length - 1 → s.seg_length = k) ∧
        (i = frames.length - 1 →
          s.seg_length =
            if frames.length % k = 0 then k else frames.length % k) := by
  intro i hi hclose
  rw [hk, segCloses_natCast] at hclose
  have hspec := runUpTo_spec cfg frames k r hk hk1 hr hrF (i + 1) (by omega)
  refine ⟨_, hspec, ?_, ?_⟩
  · intro hne
    have hmod : i % k + 1 = k := by
      rcases hclose with h | h
      · exact h
      · exact absurd h hne
    simp only [Nat.add_sub_cancel]
    rw [if_neg (by omega : ¬ i + 1 = 0)]
    omega
  · intro hlast
    simp only [Nat.add_sub_cancel]
    rw [if_neg (by omega : ¬ i + 1 = 0)]
    have hdm : k * (frames.length / k) + frames.length % k = frames.length :=
      Nat.div_add_mod frames.length k
    have hmk : frames.length % k < k := Nat.mod_lt _ (by omega)
    by_cases hFk : frames.length % k = 0
    · rw [if_pos hFk]
      have hq1 : 1 ≤ frames.length / k := by
        by_contra hq
        push_neg at hq
        have hq0 : frames.length / k = 0 := Nat.lt_one_iff.mp hq
        rw [hq0, Nat.mul_zero] at hdm
        omega
      have hsub : frames.length - 1 = k * (frames.length / k - 1) + (k - 1) := by
        have : k * (frames.length / k - 1) + k = k * (frames.length / k) := by
          rw [← Nat.mul_succ]
          congr 1
          omega
        omega
      rw [hlast, hsub,
        (mul_add_div_mod k (frames.length / k - 1) (k - 1) (by omega) (by omega)).2]
      omega
    · rw [if_neg hFk]
      have hsub : frames.length - 1 =
          k * (frames.length / k) + (frames.length % k - 1) := by omega
      rw [hlast, hsub,
        (mul_add_div_mod k (frames.length / k) (frames.length % k - 1)
          (by omega) (by omega)).2]
      omega

/-- C4 witness: in the spec scenario the first segment closes at frame 1
(not the last frame) with its counter equal to K = 2. -/
theorem segment_counter_at_closure_witness :
    ∃ s, runUpTo scenarioConfig scenarioFrames 2 = some s ∧ s.seg_length = 2 := by
  obtain ⟨s, hs, hnf, -⟩ := segment_counter_at_closure scenarioConfig scenarioFrames
    2 0 (by norm_num [scenarioConfig]) (by norm_num)
    (by norm_num [scenarioConfig]) (by norm_num [scenarioFrames])
    1 (by norm_num [scenarioFrames]) (by decide)
  exact ⟨s, hs, hnf (by norm_num [scenarioFrames])⟩

/-- C9: the Reference Configuration captured by `_prepare` equals frame R's
positions at every later point of the run; no per-frame step changes it. -/
theorem reference_immutable (cfg : Config) (frames : List (List Vec3)) (k r : ℕ)
    (hk : cfg.skip = (k : ℤ)) (hk1 : 1 ≤ k)
    (hr : cfg.reference_frame = (r : ℤ)) (hrF : r < frames.length) :
    ∀ n ≤ frames.length, ∃ s, runUpTo cfg frames n = some s ∧
      s.reference_positions = frames.getD r [] := by
  intro n hn
  exact ⟨_, runUpTo_spec cfg frames k r hk hk1 hr hrF n hn, rfl⟩

/-- C9 witness: in the spec scenario the reference positions still equal
frame 0's positions after the full run. -/
theorem reference_immutable_witness :
    ∃ s, runUpTo scenarioConfig scenarioFrames 4 = some s ∧
      s.reference_positions = scenarioFrames.getD 0 [] := by
  exact reference_immutable scenarioConfig scenarioFrames 2 0
    (by norm_num [scenarioConfig]) (by norm_num)
    (by norm_num [scenarioConfig]) (by norm_num [scenarioFrames])
    4 (by norm_num [scenarioFrames])

/-- C10: after the per-frame phase has processed frame i, the live frame
counter equals `i mod K + 1` and the live running sum is the elementwise
sum of the positions of frames `floor(i/K)*K` through `i`. -/
theorem loop_invariant (cfg : Config) (frames : List (List Vec3)) (k r : ℕ)
    (hk : cfg.skip = (k : ℤ)) (hk1 : 1 ≤ k)
    (hr : cfg.reference_frame = (r : ℤ)) (hrF : r < frames.length) :
    ∀ i < frames.length, ∃ s, runUpTo cfg frames (i + 1) = some s ∧
      s.seg_length = i % k + 1 ∧
      s.avg_coordinates =
        segmentSum cfg.n_atoms frames (k * (i / k)) (i % k + 1) := by
  intro i hi
  refine ⟨_, runUpTo_spec cfg frames k r hk hk1 hr hrF (i + 1) (by omega), ?_, ?_⟩
  · simp only [Nat.add_sub_cancel]
    rw [if_neg (by omega : ¬ i + 1 = 0)]
  · simp only [Nat.add_sub_cancel]
    rw [if_neg (by omega : ¬ i + 1 = 0)]

/-- C10 witness: in the spec scenario, after frame 1 the counter is
`1 mod 2 + 1 = 2` and the running sum covers frames 0 and 1. -/
theorem loop_invariant_witness :
    ∃ s, runUpTo scenarioConfig scenarioFrames 2 = some s ∧
      s.seg_length = 1 % 2 + 1 ∧
      s.avg_coordinates = segmentSum 2 scenarioFrames (2 * (1 / 2)) (1 % 2 + 1) := by
  exact loop_invariant scenarioConfig scenarioFrames 2 0
    (by norm_num [scenarioConfig]) (by norm_num)
    (by norm_num [scenarioConfig]) (by norm_num [scenarioFrames])
    1 (by norm_num [scenarioFrames])

/-- C7: the table is written only at closure steps, a closure step writes
only the closing segment's row, and every row has exactly one closure
step over the whole run. -/
theorem row_written_once (cfg : Config) (frames : List (List Vec3)) (k : ℕ)
    (hk : cfg.skip = (k : ℤ)) (hk1 : 1 ≤ k) :
    (∀ i pos s, ¬ segCloses cfg.skip frames.length i →
      (_single_frame cfg frames.length i pos s).map (·.trmsf) = some s.trmsf) ∧
    (∀ i pos s s', segCloses cfg.skip frames.length i →
      _single_frame cfg frames.length i pos s = some s' →
      ∀ m, m ≠ i / k → s'.trmsf[m]? = s.trmsf[m]?) ∧
    (∀ m, m < nRows frames.length k →
      ∃! i, i < frames.length ∧ segCloses cfg.skip frames.length i ∧
        i / k = m) := by
  have hsc : ∀ i, segCloses cfg.skip frames.length i ↔
      (i % k + 1 = k ∨ i = frames.length - 1) := by
    intro i
    rw [hk]
    exact segCloses_natCast k frames.length i
  refine ⟨?_, ?_, ?_⟩
  · intro i pos s hnc
    rw [hsc] at hnc
    rw [_single_frame_nat cfg k hk, if_neg hnc, Option.map_some']
  · intro i pos s s' hc hstep m hm
    rw [hsc] at hc
    rw [_single_frame_nat cfg k hk, if_pos hc] at hstep
    by_cases hj : i / k < s.trmsf.length
    · rw [if_pos hj, Option.some_inj] at hstep
      rw [← hstep]
      exact List.getElem?_set_ne (fun h => hm h.symm)
    · rw [if_neg hj] at hstep
      exact absurd hstep (by simp)
  · intro m hm
    by_cases hF0 : frames.length = 0
    · exfalso
      unfold nRows at hm
      rw [hF0, Nat.zero_add, Nat.div_eq_of_lt (by omega)] at hm
      omega
    · have hF : 1 ≤ frames.length := by omega
      have hmle : m ≤ (frames.length - 1) / k := by
        rw [nRows_eq frames.length k hk1 hF] at hm
        omega
      have hkm : k * m ≤ frames.length - 1 := by
        calc k * m ≤ k * ((frames.length - 1) / k) := Nat.mul_le_mul_left k hmle
          _ ≤ frames.length - 1 := by
              rw [Nat.mul_comm]
              exact Nat.div_mul_le_self _ _
      have hdm1 := mul_add_div_mod k m (k - 1) (by omega) (by omega)
      by_cases hcase : k * m + k ≤ frames.length
      · refine ⟨k * m + (k - 1), ⟨by omega, ?_, hdm1.1⟩, ?_⟩
        · rw [hsc]
          left
          rw [hdm1.2]
          omega
        · rintro j ⟨hj1, hj2, hj3⟩
          rw [hsc] at hj2
          have hjdm : k * (j / k) + j % k = j := Nat.div_add_mod j k
          have hjk : j % k < k := Nat.mod_lt _ (by omega)
          rcases hj2 with hj2 | hj2
          · rw [hj3] at hjdm
            omega
          · subst hj2
            have hlt : frames.length - 1 < k * m + k := by
              by_contra hge
              push_neg at hge
              have hmul : (m + 1) * k = k * m + k := by ring
              have hdiv : m + 1 ≤ (frames.length - 1) / k :=
                (Nat.le_div_iff_mul_le (by omega)).mpr (by omega)
              rw [hj3] at hdiv
              omega
            omega
      · refine ⟨frames.length - 1, ⟨by omega, by rw [hsc]; right; rfl, ?_⟩, ?_⟩
        · have hsub : frames.length - 1 = k * m + (frames.length - 1 - k * m) := by
            omega
          rw [hsub, (mul_add_div_mod k m (frames.length - 1 - k * m) (by omega)
            (by omega)).1]
        · rintro j ⟨hj1, hj2, hj3⟩
          rw [hsc] at hj2
          have hjdm : k * (j / k) + j % k = j := Nat.div_add_mod j k
          have hjk : j % k < k := Nat.mod_lt _ (by omega)
          rcases hj2 with hj2 | hj2
          · rw [hj3] at hjdm
            omega
          · exact hj2

/-- C7 witness: in the spec scenario, row 0 of the table has exactly one
closure step. -/
theorem row_written_once_witness :
    ∃! i, i < scenarioFrames.length ∧
      segCloses scenarioConfig.skip scenarioFrames.length i ∧ i / 2 = 0 := by
  exact (row_written_once scenarioConfig scenarioFrames 2
    (by norm_num [scenarioConfig]) (by norm_num)).2.2 0
    (by norm_num [nRows, scenarioFrames])

/-- C8: with K = 1, if every particle's position at frame j equals the
reference frame's positions exactly, row j of the completed Result Table
is all zeros. -/
theorem matching_frame_row_zero (cfg : Config) (frames : List (List Vec3))
    (r j : ℕ) (hk : cfg.skip = ((1 : ℕ) : ℤ))
    (hr : cfg.reference_frame = (r : ℤ)) (hrF : r < frames.length)
    (hj : j < frames.length)
    (hlen : ∀ f ∈ frames, f.length = cfg.n_atoms)
    (heq : frames.getD j [] = frames.getD r []) :
    ∃ t, results_trmsf cfg frames = some t ∧
      t.getD j [] = List.replicate cfg.n_atoms (0 : ℝ) := by
  have hspec := runUpTo_spec cfg frames 1 r hk le_rfl hr hrF frames.length le_rfl
  have ht : results_trmsf cfg frames =
      some ((expectedTable cfg.n_atoms 1 r frames.length frames).map
        (List.map (fun q : ℚ => Real.sqrt (q : ℝ)))) := by
    rw [results_trmsf, run, hspec, Option.map_some', Option.map_some']
  refine ⟨_, ht, ?_⟩
  have hnr : nRows frames.length 1 = frames.length := by
    unfold nRows
    simp
  have hwc : writtenCount 1 frames.length frames.length = frames.length := by
    unfold writtenCount
    rw [if_pos rfl, hnr]
  have h2 : j < (expectedTable cfg.n_atoms 1 r frames.length frames).length := by
    rw [expectedTable_length, hnr]
    exact hj
  have h1 : j < ((expectedTable cfg.n_atoms 1 r frames.length frames).map
      (List.map (fun q : ℚ => Real.sqrt (q : ℝ)))).length := by
    rw [List.length_map]
    exact h2
  rw [List.getD_eq_getElem _ _ h1, List.getElem_map, ← List.getD_eq_getElem _ _ h2,
    expectedTable_getD cfg.n_atoms 1 r frames.length frames j (by rw [hnr]; exact hj),
    if_pos (by rw [hwc]; exact hj)]
  have hrefl : (frames.getD r []).length = cfg.n_atoms :=
    hlen _ (getD_mem frames r hrF)
  have hjl : (frames.getD j []).length = cfg.n_atoms :=
    hlen _ (getD_mem frames j hj)
  have hseglen : segLen 1 frames.length j = 1 := by
    unfold segLen
    rw [Nat.one_mul, Nat.one_mul]
    omega
  have hsum : segmentSum cfg.n_atoms frames j 1 = frames.getD j [] := by
    have h01 := segmentSum_succ cfg.n_atoms frames j 0 (by omega)
    rw [segmentSum_zero, Nat.add_zero] at h01
    rw [h01, ← hjl]
    exact addVecs_replicate_zero _
  unfold rowSq
  rw [hseglen, Nat.one_mul, hsum, divVecs_one, heq, subVecs_self_normSq, hrefl]
  simp [List.map_replicate, Real.sqrt_zero]

/-- C8 witness: a two-frame trajectory with K = 1 whose frame 1 equals the
reference frame 0 yields an all-zero row 1. -/
theorem matching_frame_row_zero_witness :
    ∃ t, results_trmsf ⟨1, 1, 0⟩ [[⟨0, 0, 0⟩], [⟨0, 0, 0⟩]] = some t ∧
      t.getD 1 [] = List.replicate 1 (0 : ℝ) := by
  exact matching_frame_row_zero ⟨1, 1, 0⟩ [[⟨0, 0, 0⟩], [⟨0, 0, 0⟩]] 0 1
    (by norm_num) (by norm_num) (by norm_num) (by norm_num)
    (by
      intro f hf
      fin_cases hf <;> rfl)
    rfl

end Trmsfkit
